import Mathlib

/-!
# Verification of the Provisions proof-of-solvency core

A shallow embedding of the `provisions` Rust crate (field arithmetic mod the
secp256k1 subgroup order, the curve-point wrapper around the `secp256k1`
library, Pedersen commitments, the binary / Schnorr / asset / liability /
solvency proofs and their serialization), together with theorems settling the
frozen claims about the crate.

Modelling conventions, documented once here:

* Bytes are `ℕ` (always < 256 where produced by the code); `BigUint` is `ℕ`;
  `BigInt` is `ℤ`.
* `Field256` (src/fields/field256.rs) stores its `BigUint` value as a raw `ℕ`
  exactly as the source stores an unreduced-typed `BigUint`; every constructor
  reduces mod the curve order, which the invariant claims are about.
* The external `secp256k1` library operates on the prime-order cyclic subgroup
  generated by `G` (secp256k1 has cofactor 1).  A library `PublicKey` (a
  non-identity curve point) is represented by its discrete logarithm with
  respect to `G`, an element `pk : Fq`; this representation is a group
  isomorphism onto the subgroup, so `combine` (point addition) is addition of
  exponents, `mul_assign` (scalar multiplication) is multiplication by the
  scalar, and point equality is exponent equality.  The second generator
  `H = Point::from_hash("PROVISIONS")` is a fixed curve point whose discrete
  log nobody knows; theorems therefore quantify over its exponent `η ≠ 0`.
* The library calls that the source wraps in `.expect(...)` can fail and then
  panic the program: `combine` errors exactly when the sum of the two
  (non-identity) points is the point at infinity, and `mul_assign` errors when
  the scalar encoding is zero or not below the group order.  Panics are
  modelled as `none`; all point-producing operations return `Option Point`.
* SHA-256 (used by `compute_cid`) is implemented concretely below.  For
  `compute_challenge` the transcript hash and the library's 65-byte
  uncompressed point encoding are parameters (`sha`, `unc`): the completeness
  and panic claims hold for every choice of these functions, and concrete
  evaluations instantiate them.
* `rand()` values are passed in as explicit `ℕ` arguments and reduced by
  `Field256.new`, exactly as `Field256::rand` reduces its 256-bit sample.
-/

/-- Order of the secp256k1 generator subgroup (`secp256k1::constants::CURVE_ORDER`,
`Field256::p()` in the source). -/
def curveOrder : ℕ :=
  0xFFFFFFFFFFFFFFFFFFFFFFFFFFFFFFFEBAAEDCE6AF48A03BBFD25E8CD0364141

instance : NeZero curveOrder := ⟨by norm_num [curveOrder]⟩

/-- Exponents of subgroup points: the integers mod the subgroup order. -/
abbrev Fq := ZMod curveOrder

/-! ## Byte and bit helpers (src/util.rs, src/bigint.rs) -/

/-- `util::bit_at_index`: the bit of `byte` at `index`, as `0` or `1`. -/
def bit_at_index (index byte : ℕ) : ℕ := if byte.testBit index then 1 else 0

/-- `util::byte_to_bits_le`: a byte as its eight bits, least significant first. -/
def byte_to_bits_le (byte : ℕ) : List ℕ :=
  [bit_at_index 0 byte, bit_at_index 1 byte, bit_at_index 2 byte,
   bit_at_index 3 byte, bit_at_index 4 byte, bit_at_index 5 byte,
   bit_at_index 6 byte, bit_at_index 7 byte]

/-- Helper for `natMinBytesBE`; the fuel argument only bounds the recursion
and any fuel of at least the number of base-256 digits gives the digits. -/
def bytesBEAux : ℕ → ℕ → List ℕ
  | 0, _ => []
  | fuel + 1, v => if v = 0 then [] else bytesBEAux fuel (v / 256) ++ [v % 256]

/-- `num_bigint::BigUint::to_bytes_be`: minimal big-endian bytes; zero is `[0]`. -/
def natMinBytesBE (v : ℕ) : List ℕ := if v = 0 then [0] else bytesBEAux v v

/-- `bigint::biguint_to_bytes_be` is called by the source (liability
serialization, hash-to-curve) but its definition is not under src/.
Modelled from the spec: big-endian, left-padded with zeros to `len` bytes. -/
def biguint_to_bytes_be (v len : ℕ) : List ℕ :=
  List.replicate (len - (natMinBytesBE v).length) 0 ++ natMinBytesBE v

/-- `bigint::biguint_to_bits_le`: big-endian bytes of `value`, each byte
expanded to little-endian bits, truncated/zero-padded to `len` bits.
(Note the byte order: for multi-byte values this is NOT the little-endian
bit decomposition of `value`.) -/
def biguint_to_bits_le (value len : ℕ) : List ℕ :=
  let bits := ((natMinBytesBE value).map byte_to_bits_le).flatten.take len
  bits ++ List.replicate (len - bits.length) 0

/-! ## The scalar field (src/fields/field256.rs) -/

/-- `Field256`: a `BigUint` value (the stored modulus field `p` is always
`curveOrder` and is omitted). -/
structure Field256 where
  value : ℕ
deriving DecidableEq

namespace Field256

/-- `Field256::new`: reduce the value into the field. -/
def new (v : ℕ) : Field256 := ⟨v % curveOrder⟩

/-- `Field256::from_bytes_be`. -/
def from_bytes_be (bytes : List ℕ) : Field256 :=
  new (bytes.foldl (fun acc b => 256 * acc + b) 0)

/-- `Field256::one`. -/
def one : Field256 := new 1

/-- `Field256::zero`. -/
def zero : Field256 := new 0

/-- `Field256::is_zero`. -/
def isZero (a : Field256) : Bool := a.value == 0

/-- `Field256::is_binary`: value is 0 or 1. -/
def isBinary (a : Field256) : Bool := a.value == 0 || a.value == 1

/-- `impl Add for Field256`: `(self.value + rhs.value).mod_floor(p)` then `new`. -/
def add (a b : Field256) : Field256 := new (a.value + b.value)

/-- `impl Mul for Field256`. -/
def mul (a b : Field256) : Field256 := new (a.value * b.value)

/-- `impl Neg for Field256`: `p - value` then `new`. -/
def neg (a : Field256) : Field256 := new (curveOrder - a.value)

/-- `impl Sub for Field256`: branch on which value is larger. -/
def sub (a b : Field256) : Field256 :=
  if b.value < a.value then new (a.value - b.value)
  else new (curveOrder - (b.value - a.value))

/-- `impl From<BigInt> for Field256` (used via `From<i8>/<i32>` and by the
solvency exponent): floor-mod into `[0, q)`. -/
def fromInt (z : ℤ) : Field256 := new (z % (curveOrder : ℤ)).toNat

/-- `Field256::neg_one` is called by `point_inverse` but its definition is not
under src/.  Modelled from the spec: the additive inverse of one. -/
def neg_one : Field256 := neg one

/-- `Field256::to_big_endian`: 32 bytes, left-padded; panics (`none`) when the
minimal bytes are longer than 32 (claim C9 shows this is unreachable). -/
def to_big_endian (a : Field256) : Option (List ℕ) :=
  let bytes := natMinBytesBE a.value
  if 32 < bytes.length then none
  else some (List.replicate (32 - bytes.length) 0 ++ bytes)

/-- `impl Serialize for Field256` is not under src/.  Modelled from the spec:
32-byte big-endian, left-padded with zeros. -/
def serialize (a : Field256) : List ℕ :=
  List.replicate (32 - (natMinBytesBE a.value).length) 0 ++ natMinBytesBE a.value

end Field256

/-- The exponent (mod `curveOrder`) denoted by a `Field256` value. -/
def castF (a : Field256) : Fq := (a.value : Fq)

@[simp] theorem castF_new (v : ℕ) : castF (Field256.new v) = (v : Fq) := by
  simp [castF, Field256.new, ZMod.natCast_mod]

theorem val_new_lt (v : ℕ) : (Field256.new v).value < curveOrder :=
  Nat.mod_lt _ (by norm_num [curveOrder])

theorem val_add_lt (a b : Field256) : (a.add b).value < curveOrder := val_new_lt _

theorem val_mul_lt (a b : Field256) : (a.mul b).value < curveOrder := val_new_lt _

theorem val_sub_lt (a b : Field256) : (a.sub b).value < curveOrder := by
  unfold Field256.sub; split <;> exact val_new_lt _

theorem val_neg_lt (a : Field256) : (a.neg).value < curveOrder := val_new_lt _

@[simp] theorem castF_add (a b : Field256) : castF (a.add b) = castF a + castF b := by
  rw [Field256.add, castF_new, Nat.cast_add]; rfl

@[simp] theorem castF_mul (a b : Field256) : castF (a.mul b) = castF a * castF b := by
  rw [Field256.mul, castF_new, Nat.cast_mul]; rfl

theorem castF_neg (a : Field256) (h : a.value ≤ curveOrder) :
    castF (a.neg) = -castF a := by
  rw [Field256.neg, castF_new, Nat.cast_sub h, ZMod.natCast_self, zero_sub]; rfl

theorem castF_sub (a b : Field256) (h : b.value ≤ curveOrder) :
    castF (a.sub b) = castF a - castF b := by
  unfold Field256.sub
  split
  · next hlt =>
    rw [castF_new, Nat.cast_sub (le_of_lt hlt)]; rfl
  · next hlt =>
    have hba : a.value ≤ b.value := le_of_not_lt hlt
    have hd : b.value - a.value ≤ curveOrder := le_trans (Nat.sub_le _ _) h
    rw [castF_new, Nat.cast_sub hd, Nat.cast_sub hba, ZMod.natCast_self, zero_sub,
      neg_sub]; rfl

@[simp] theorem castF_one : castF Field256.one = 1 := by
  simp [Field256.one]

@[simp] theorem castF_zero : castF Field256.zero = 0 := by
  simp [Field256.zero]

/-! ## Curve points (src/secp256k1.rs) -/

/-- `Point`: a library `PublicKey` (represented by its exponent `pk` with
respect to `G`, see the header) plus the infinity flag.  The `secp256k1`
context field always compares equal and is omitted; the derived `PartialEq`
therefore compares `pk` and `infinity` — note that it compares the stale `pk`
stored under a set infinity flag. -/
structure Point where
  pk : Fq
  infinity : Bool
deriving DecidableEq

namespace Point

/-- `Point::g()`: the standard base point, exponent 1. -/
def g : Point := ⟨1, false⟩

/-- `Point::infinity()`: `Point::g()` with the flag set (the generator's
coordinates stay stored in `pk`). -/
def atInfinity : Point := ⟨1, true⟩

/-- `Point::serialize_uncompressed`: the library's 65-byte encoding of the
stored `pk` — the infinity flag is ignored.  `unc` abstracts the library's
affine-coordinate encoding of the point with exponent `k`. -/
def serialize_uncompressed (unc : Fq → List ℕ) (p : Point) : List ℕ := unc p.pk

/-- `Point::mul`: zero scalar sets the flag (keeping `pk`); infinity is a
noop; otherwise `pk.mul_assign(n.to_bytes_be())`, whose `.expect("invalid
multiplication")` panics (`none`) when the scalar is not in `[1, q)`
(including the `to_bytes_be` overflow panic for values ≥ 2^256). -/
def mul (p : Point) (n : Field256) : Option Point :=
  if n.isZero then some { p with infinity := true }
  else if p.infinity then some p
  else if n.value < curveOrder then some { p with pk := (n.value : Fq) * p.pk }
  else none

/-- `Point::add`: infinity cases copy fields; otherwise
`pk.combine(other.pk)`, whose `.expect("invalid addition")` panics (`none`)
exactly when the two non-identity points are inverse, i.e. the exponents sum
to zero. -/
def add (p q : Point) : Option Point :=
  if p.infinity then some { pk := q.pk, infinity := q.infinity }
  else if q.infinity then some p
  else if p.pk + q.pk = 0 then none
  else some { pk := p.pk + q.pk, infinity := false }

end Point

/-- `secp256k1::point_mul`. -/
def point_mul (g : Point) (x : Field256) : Option Point := Point.mul g x

/-- `secp256k1::point_add`. -/
def point_add (g h : Point) : Option Point := Point.add g h

/-- `secp256k1::pedersen_commitment`: `x·g + r·h`. -/
def pedersen_commitment (g : Point) (x : Field256) (h : Point) (r : Field256) :
    Option Point :=
  (Point.mul g x).bind fun gx =>
  (Point.mul h r).bind fun hr =>
  Point.add gx hr

/-- `secp256k1::point_mul_add`: `x·g + h`. -/
def point_mul_add (g : Point) (x : Field256) (h : Point) : Option Point :=
  (Point.mul g x).bind fun gx => Point.add gx h

/-- `secp256k1::point_inverse`: multiply by `neg_one`. -/
def point_inverse (g : Point) : Option Point := Point.mul g Field256.neg_one

/-- Loop of `secp256k1::point_sum`. -/
def point_sum_aux (acc : Point) : List Point → Option Point
  | [] => some acc
  | p :: ps => (Point.add acc p).bind fun acc2 => point_sum_aux acc2 ps

/-- `secp256k1::point_sum`: fold `add` starting from `Point::infinity()`. -/
def point_sum (points : List Point) : Option Point :=
  point_sum_aux Point.atInfinity points

/-- `proofs::compute_challenge`: hash the concatenated 65-byte uncompressed
encodings of the points in order, then reduce into the field.  `sha` is the
SHA-256 digest (as a big-endian number) of a byte string. -/
def compute_challenge (sha : List ℕ → ℕ) (unc : Fq → List ℕ)
    (points : List Point) : Field256 :=
  Field256.new (sha ((points.map (Point.serialize_uncompressed unc)).flatten))

/-! ### Exponent semantics of points -/

/-- The subgroup element denoted by a `Point` (infinity denotes the identity,
exponent 0). -/
def expOf (p : Point) : Fq := if p.infinity then 0 else p.pk

@[simp] theorem expOf_g : expOf Point.g = 1 := rfl

@[simp] theorem expOf_atInfinity : expOf Point.atInfinity = 0 := rfl

theorem bool_false_of_ne_true {b : Bool} (h : ¬b = true) : b = false := by
  cases b
  · rfl
  · exact absurd rfl h

theorem mul_eq_some_exp {p : Point} {n : Field256} {r : Point}
    (h : Point.mul p n = some r) : expOf r = castF n * expOf p := by
  unfold Point.mul at h
  split at h
  · next hz =>
    simp only [Option.some.injEq] at h
    subst h
    have : n.value = 0 := by simpa [Field256.isZero] using hz
    simp [expOf, castF, this]
  · split at h
    · next hinf =>
      simp only [Option.some.injEq] at h
      subst h
      simp [expOf, hinf]
    · split at h
      · next hinf _ =>
        simp only [Option.some.injEq] at h
        subst h
        simp [expOf, bool_false_of_ne_true hinf, castF]
      · exact absurd h (by simp)

theorem mul_isSome {p : Point} {n : Field256} (hlt : n.value < curveOrder) :
    ∃ r, Point.mul p n = some r ∧ expOf r = castF n * expOf p := by
  have hs : (Point.mul p n).isSome := by
    unfold Point.mul
    split
    · simp
    · split
      · simp
      · simp [hlt]
  rcases Option.isSome_iff_exists.mp hs with ⟨r, hr⟩
  exact ⟨r, hr, mul_eq_some_exp hr⟩

/-- When the scalar is reduced and does not send the point to the identity,
`mul` yields the non-infinity point with the product exponent. -/
theorem mul_of_ne {p : Point} {n : Field256} (hlt : n.value < curveOrder)
    (hne : castF n * expOf p ≠ 0) :
    Point.mul p n = some ⟨castF n * expOf p, false⟩ := by
  have hnz : n.value ≠ 0 := by
    intro h0
    apply hne
    simp [castF, h0]
  have hninf : p.infinity = false := by
    cases hpi : p.infinity
    · rfl
    · exact absurd (by simp [expOf, hpi]) hne
  unfold Point.mul
  simp [Field256.isZero, hnz, hninf, hlt, expOf, castF]

theorem add_eq_some_exp {p q r : Point} (h : Point.add p q = some r) :
    expOf r = expOf p + expOf q := by
  unfold Point.add at h
  split at h
  · next hp =>
    simp only [Option.some.injEq] at h
    subst h
    simp [expOf, hp]
  · split at h
    · next hp hq =>
      simp only [Option.some.injEq] at h
      subst h
      simp [expOf, bool_false_of_ne_true hp, hq]
    · split at h
      · exact absurd h (by simp)
      · next hp hq hne =>
        simp only [Option.some.injEq] at h
        subst h
        simp [expOf, bool_false_of_ne_true hp, bool_false_of_ne_true hq]

/-- When the exponents do not cancel, `add` succeeds and yields the
non-infinity point with the summed exponent. -/
theorem add_of_sum_ne {p q : Point} (h : expOf p + expOf q ≠ 0) :
    Point.add p q = some ⟨expOf p + expOf q, false⟩ := by
  unfold Point.add
  cases hp : p.infinity
  · cases hq : q.infinity
    · have hne : p.pk + q.pk ≠ 0 := by
        simpa [expOf, hp, hq] using h
      simp [hp, hq, hne, expOf]
    · have hpeta : p = ⟨p.pk, false⟩ := by
        cases p
        simp_all
      simp only [hp, hq, expOf, Bool.false_eq_true, if_false, if_true, add_zero]
      rw [← hpeta]
  · cases hq : q.infinity
    · simp [hp, hq, expOf]
    · exact absurd (by simp [expOf, hp, hq]) h

theorem pedersen_eq_some_exp {g h : Point} {x r : Field256} {P : Point}
    (hP : pedersen_commitment g x h r = some P) :
    expOf P = castF x * expOf g + castF r * expOf h := by
  unfold pedersen_commitment at hP
  rcases Option.bind_eq_some.mp hP with ⟨gx, hgx, hrest⟩
  rcases Option.bind_eq_some.mp hrest with ⟨hr2, hhr, hadd⟩
  rw [add_eq_some_exp hadd, mul_eq_some_exp hgx, mul_eq_some_exp hhr]

/-! ## SHA-256 (the `sha2` crate as used by `compute_cid`) -/

/-- 32-bit right rotation. -/
def rotr32 (x n : ℕ) : ℕ := ((x >>> n) ||| (x <<< (32 - n))) % 4294967296

/-- 32-bit addition. -/
def add32 (a b : ℕ) : ℕ := (a + b) % 4294967296

/-- The 64 SHA-256 round constants. -/
def sha256K : List ℕ :=
  [1116352408, 1899447441, 3049323471, 3921009573, 961987163, 1508970993,
   2453635748, 2870763221, 3624381080, 310598401, 607225278, 1426881987,
   1925078388, 2162078206, 2614888103, 3248222580, 3835390401, 4022224774,
   264347078, 604807628, 770255983, 1249150122, 1555081692, 1996064986,
   2554220882, 2821834349, 2952996808, 3210313671, 3336571891, 3584528711,
   113926993, 338241895, 666307205, 773529912, 1294757372, 1396182291,
   1695183700, 1986661051, 2177026350, 2456956037, 2730485921, 2820302411,
   3259730800, 3345764771, 3516065817, 3600352804, 4094571909, 275423344,
   430227734, 506948616, 659060556, 883997877, 958139571, 1322822218,
   1537002063, 1747873779, 1955562222, 2024104815, 2227730452, 2361852424,
   2428436474, 2756734187, 3204031479, 3329325298]

/-- The SHA-256 initial hash state. -/
def sha256H0 : List ℕ :=
  [1779033703, 3144134277, 1013904242, 2773480762,
   1359893119, 2600822924, 528734635, 1541459225]

/-- Pad a byte message for SHA-256: append `0x80`, zeros, and the 64-bit
big-endian bit length, to a multiple of 64 bytes. -/
def sha256Pad (msg : List ℕ) : List ℕ :=
  msg ++ [0x80] ++ List.replicate ((55 + 64 - msg.length % 64) % 64) 0 ++
    biguint_to_bytes_be (8 * msg.length) 8

/-- One 32-bit big-endian word from four bytes. -/
def wordOfBytes (bs : List ℕ) : ℕ := bs.foldl (fun acc b => 256 * acc + b) 0

/-- Extend 16 message words to the 64-word SHA-256 schedule. -/
def sha256Schedule (w16 : List ℕ) : List ℕ :=
  (List.range 48).foldl
    (fun w _ =>
      let n := w.length
      let w15 := w.getD (n - 15) 0
      let w2 := w.getD (n - 2) 0
      let s0 := (rotr32 w15 7) ^^^ (rotr32 w15 18) ^^^ (w15 >>> 3)
      let s1 := (rotr32 w2 17) ^^^ (rotr32 w2 19) ^^^ (w2 >>> 10)
      w ++ [(w.getD (n - 16) 0 + s0 + w.getD (n - 7) 0 + s1) % 4294967296])
    w16

/-- The SHA-256 compression function on one 64-word schedule. -/
def sha256Compress (hs w : List ℕ) : List ℕ :=
  let final := (List.range 64).foldl
    (fun st t =>
      let a := st.getD 0 0
      let b := st.getD 1 0
      let c := st.getD 2 0
      let d := st.getD 3 0
      let e := st.getD 4 0
      let f := st.getD 5 0
      let g := st.getD 6 0
      let h := st.getD 7 0
      let s1 := (rotr32 e 6) ^^^ (rotr32 e 11) ^^^ (rotr32 e 25)
      let ch := (e &&& f) ^^^ ((e ^^^ 4294967295) &&& g)
      let t1 := (h + s1 + ch + sha256K.getD t 0 + w.getD t 0) % 4294967296
      let s0 := (rotr32 a 2) ^^^ (rotr32 a 13) ^^^ (rotr32 a 22)
      let mj := (a &&& b) ^^^ (a &&& c) ^^^ (b &&& c)
      let t2 := (s0 + mj) % 4294967296
      [add32 t1 t2, a, b, c, add32 d t1, e, f, g])
    hs
  (List.range 8).map (fun i => add32 (hs.getD i 0) (final.getD i 0))

/-- `Sha256::digest`: the 32 digest bytes of a byte message. -/
def sha256Bytes (msg : List ℕ) : List ℕ :=
  let padded := sha256Pad msg
  let final := (List.range (padded.length / 64)).foldl
    (fun hs i =>
      let block := (padded.drop (64 * i)).take 64
      let w16 := (List.range 16).map (fun j => wordOfBytes ((block.drop (4 * j)).take 4))
      sha256Compress hs (sha256Schedule w16))
    sha256H0
  (final.map (fun wd => biguint_to_bytes_be wd 4)).flatten

set_option maxRecDepth 8000 in
/-- Validation against the standard SHA-256 test vector for the empty message. -/
theorem sha256_empty_vector :
    sha256Bytes [] =
      [0xe3, 0xb0, 0xc4, 0x42, 0x98, 0xfc, 0x1c, 0x14, 0x9a, 0xfb, 0xf4, 0xc8,
       0x99, 0x6f, 0xb9, 0x24, 0x27, 0xae, 0x41, 0xe4, 0x64, 0x9b, 0x93, 0x4c,
       0xa4, 0x95, 0x99, 0x1b, 0x78, 0x52, 0xb8, 0x55] := by
  decide

set_option maxRecDepth 8000 in
/-- Validation against the standard SHA-256 test vector for `"abc"`. -/
theorem sha256_abc_vector :
    sha256Bytes [0x61, 0x62, 0x63] =
      [0xba, 0x78, 0x16, 0xbf, 0x8f, 0x01, 0xcf, 0xea, 0x41, 0x41, 0x40, 0xde,
       0x5d, 0xae, 0x22, 0x23, 0xb0, 0x03, 0x61, 0xa3, 0x96, 0x17, 0x7a, 0x9c,
       0xb4, 0x10, 0xff, 0x61, 0xf2, 0x00, 0x15, 0xad] := by
  decide

/-! ## BinaryProof (src/proofs/binary.rs) -/

/-- `BinaryProof`: commitment `l = x·g + y·h` with `x ∈ {0,1}`, witnesses
`a0, a1` and responses `c1, r0, r1`. -/
structure BinaryProof where
  g : Point
  h : Point
  l : Point
  a0 : Point
  a1 : Point
  c1 : Field256
  r0 : Field256
  r1 : Field256
deriving DecidableEq

/-- `BinaryProof::create`.  `u0, u1, cf` are the three `Field256::rand()`
draws.  `none` models the `NonBinary` panic and the point-addition panics. -/
def binaryCreate (sha : List ℕ → ℕ) (unc : Fq → List ℕ)
    (x y u0 u1 cf : Field256) (g h : Point) : Option BinaryProof :=
  if x.isBinary then
    (pedersen_commitment g x h y).bind fun l =>
    (pedersen_commitment h u0 g (Field256.neg (x.mul cf))).bind fun a0 =>
    (pedersen_commitment h u1 g ((Field256.one.sub x).mul cf)).bind fun a1 =>
    let c := compute_challenge sha unc [g, h, l, a0, a1]
    let c1 := (x.mul (c.sub cf)).add ((Field256.one.sub x).mul cf)
    let r0 := u0.add ((c.sub c1).mul y)
    let r1 := u1.add (c1.mul y)
    some ⟨g, h, l, a0, a1, c1, r0, r1⟩
  else none

/-- `BinaryProof::verify`: recompute the challenge and check
`r0·h = a0 + (c−c1)·l` and `r1·h = a1 + c1·(l − g)`. -/
def binaryVerify (sha : List ℕ → ℕ) (unc : Fq → List ℕ)
    (prf : BinaryProof) : Option Bool :=
  let c := compute_challenge sha unc [prf.g, prf.h, prf.l, prf.a0, prf.a1]
  (point_mul prf.h prf.r0).bind fun p1lhs =>
  (point_mul prf.l (c.sub prf.c1)).bind fun m1 =>
  (point_add prf.a0 m1).bind fun p1rhs =>
  (point_mul prf.h prf.r1).bind fun p2lhs =>
  (point_inverse prf.g).bind fun ginv =>
  (point_add prf.l ginv).bind fun lg =>
  (point_mul lg prf.c1).bind fun m2 =>
  (point_add prf.a1 m2).bind fun p2rhs =>
  some (decide (p1lhs = p1rhs) && decide (p2lhs = p2rhs))

/-! ## SchnorrProof (src/proofs/schnorr.rs) -/

/-- `SchnorrProof`: `s = ρ + c·x`, with `t = ρ·g` and `y = x·g`. -/
structure SchnorrProof where
  s : Field256
  g : Point
  y : Point
  t : Point
deriving DecidableEq

/-- `SchnorrProof::create`; `rho` is the `Field256::rand()` draw. -/
def schnorrCreate (sha : List ℕ → ℕ) (unc : Fq → List ℕ)
    (x : Field256) (g y : Point) (rho : Field256) : Option SchnorrProof :=
  (point_mul g rho).bind fun t =>
  let c := compute_challenge sha unc [g, y, t]
  some ⟨rho.add (c.mul x), g, y, t⟩

/-- `SchnorrProof::verify`: `s·g = t + c·y`. -/
def schnorrVerify (sha : List ℕ → ℕ) (unc : Fq → List ℕ)
    (prf : SchnorrProof) : Option Bool :=
  (point_mul prf.g prf.s).bind fun lhs =>
  let c := compute_challenge sha unc [prf.g, prf.y, prf.t]
  (point_mul prf.y c).bind fun yc =>
  (point_add prf.t yc).bind fun rhs =>
  some (decide (lhs = rhs))

/-! ## AssetProof (src/proofs/asset.rs) -/

/-- `AssetProof`. -/
structure AssetProof where
  g : Point
  h : Point
  y : Point
  b : Point
  l : Point
  a1 : Point
  a2 : Point
  a3 : Point
  rs : Field256
  rv : Field256
  rt : Field256
  rxhat : Field256
  v : Field256
  balance_comm : BinaryProof
deriving DecidableEq

/-- `AssetProof::p_ref`: the inner commitment `P` is the binary proof's `l`. -/
def AssetProof.p_ref (p : AssetProof) : Point := p.balance_comm.l

/-- `AssetProof::create`.  `vv, tv, u1v, u2v, u3v, u4v` are the
`Field256::rand()` draws and `bu0, bu1, bcf` the draws inside the inner
`BinaryProof::create`. -/
def assetCreate (sha : List ℕ → ℕ) (unc : Fq → List ℕ)
    (x : Option Field256) (y : Point) (bal : ℕ) (g h : Point)
    (vv tv u1v u2v u3v u4v bu0 bu1 bcf : ℕ) : Option AssetProof :=
  (point_mul g (Field256.new bal)).bind fun b =>
  let s := if x.isSome then Field256.one else Field256.zero
  let xhat := x.getD Field256.zero
  let v := Field256.new vv
  (binaryCreate sha unc s v (Field256.new bu0)
    (Field256.new bu1) (Field256.new bcf) b h).bind fun balance_comm =>
  let t := Field256.new tv
  (pedersen_commitment y s h t).bind fun l =>
  let u1 := Field256.new u1v
  let u2 := Field256.new u2v
  let u3 := Field256.new u3v
  let u4 := Field256.new u4v
  (pedersen_commitment b u1 h u2).bind fun a1 =>
  (pedersen_commitment y u1 h u3).bind fun a2 =>
  (pedersen_commitment g u4 h u3).bind fun a3 =>
  let c := compute_challenge sha unc [y, g, h, b, balance_comm.l, l, a1, a2, a3]
  let rs := u1.add (c.mul s)
  let rv := u2.add (c.mul v)
  let rt := u3.add (c.mul t)
  let rxhat := u4.add (c.mul xhat)
  some ⟨g, h, y, b, l, a1, a2, a3, rs, rv, rt, rxhat, v, balance_comm⟩

/-- `AssetProof::verify`. -/
def assetVerify (sha : List ℕ → ℕ) (unc : Fq → List ℕ)
    (prf : AssetProof) : Option Bool :=
  let c := compute_challenge sha unc
    [prf.y, prf.g, prf.h, prf.b, prf.p_ref, prf.l, prf.a1, prf.a2, prf.a3]
  (pedersen_commitment prf.b prf.rs prf.h prf.rv).bind fun lhs1 =>
  (point_mul_add prf.p_ref c prf.a1).bind fun rhs1 =>
  (pedersen_commitment prf.y prf.rs prf.h prf.rt).bind fun lhs2 =>
  (point_mul_add prf.l c prf.a2).bind fun rhs2 =>
  (pedersen_commitment prf.g prf.rxhat prf.h prf.rt).bind fun lhs3 =>
  (point_mul_add prf.l c prf.a3).bind fun rhs3 =>
  (binaryVerify sha unc prf.balance_comm).bind fun bv =>
  some ((decide (lhs1 = rhs1) && decide (lhs2 = rhs2) && decide (lhs3 = rhs3)) && bv)

/-! ## LiabilityProof (src/proofs/liability.rs) -/

/-- `LiabilityProof`: salted customer id `cid`, 51 per-bit binary proofs,
secret salt `n` and aggregated blinding `r = Σ rᵢ·2ⁱ` (a plain integer). -/
structure LiabilityProof where
  g : Point
  h : Point
  cid : List ℕ
  bits : List BinaryProof
  n : ℕ
  r : ℕ
deriving DecidableEq

/-- `BALANCE_BITS`. -/
def BALANCE_BITS : ℕ := 51

/-- `liability::compute_cid`: SHA-256 of the identifier followed by the
minimal big-endian bytes of `n` (`BigUint::to_bytes_be`). -/
def compute_cid (identifier : List ℕ) (n : ℕ) : List ℕ :=
  sha256Bytes (identifier ++ natMinBytesBE n)

/-- Sequencing of an option-valued map over a list (the rayon
`par_iter.fold/reduce` in the source combines the per-bit results back in
index order, so its result is this sequential map). -/
def mapMOpt (f : α → Option β) : List α → Option (List β)
  | [] => some []
  | a :: as => (f a).bind fun b => (mapMOpt f as).bind fun bs => some (b :: bs)

/-- `LiabilityProof::create`.  `rnd i = (rᵢ, u0ᵢ, u1ᵢ, cfᵢ)` supplies the
`Field256::rand()` draws of bit `i`, and `nv` the salt draw. -/
def liabilityCreate (sha : List ℕ → ℕ) (unc : Fq → List ℕ)
    (identifier : List ℕ) (balance : ℕ) (rnd : ℕ → ℕ × ℕ × ℕ × ℕ) (nv : ℕ)
    (g h : Point) : Option LiabilityProof :=
  let bits := biguint_to_bits_le balance BALANCE_BITS
  (mapMOpt
    (fun (ib : ℕ × ℕ) =>
      binaryCreate sha unc (Field256.new ib.2) (Field256.new (rnd ib.1).1)
        (Field256.new (rnd ib.1).2.1) (Field256.new (rnd ib.1).2.2.1)
        (Field256.new (rnd ib.1).2.2.2) g h)
    bits.enum).bind fun bitProofs =>
  let r := (bits.enum.map (fun ib => (Field256.new (rnd ib.1).1).value * 2 ^ ib.1)).sum
  let n := (Field256.new nv).value
  let cid := compute_cid identifier n
  some ⟨g, h, cid, bitProofs, n, r⟩

/-- `LiabilityProof::verify`: all inner binary proofs verify (a panic in any
inner verification is the panic of the whole). -/
def liabilityVerify (sha : List ℕ → ℕ) (unc : Fq → List ℕ)
    (prf : LiabilityProof) : Option Bool :=
  (mapMOpt (binaryVerify sha unc) prf.bits).bind fun results =>
  some (results.all id)

/-- `LiabilityProof::z`: `Σ 2ⁱ·Lᵢ` over the bit commitments. -/
def liabilityZ (prf : LiabilityProof) : Option Point :=
  prf.bits.enum.foldlM
    (fun z (ib : ℕ × BinaryProof) =>
      (point_mul ib.2.l (Field256.new (2 ^ ib.1))).bind fun zi => Point.add z zi)
    Point.atInfinity

/-- `LiabilityProof::verify_as_customer`: recompute the cid, then check
`z = bal·g + r·h` with `bal` and `r` reduced into the field. -/
def liabilityVerifyAsCustomer (prf : LiabilityProof) (identifier : List ℕ)
    (balance : ℕ) : Option Bool :=
  if compute_cid identifier prf.n ≠ prf.cid then some false
  else
    let bal := Field256.new balance
    let r := Field256.new prf.r
    (pedersen_commitment prf.g bal prf.h r).bind fun rhs =>
    (liabilityZ prf).bind fun z =>
    some (decide (z = rhs))

/-! ## SolvencyProof (src/proofs/solvency.rs) -/

/-- `SolvencyProof`: the wrapped Schnorr proof. -/
structure SolvencyProof where
  schnorr : SchnorrProof
deriving DecidableEq

/-- `SolvencyProof::create`; `rho` is the draw inside `SchnorrProof::create`. -/
def solvencyCreate (sha : List ℕ → ℕ) (unc : Fq → List ℕ)
    (assets : List AssetProof) (liabilities : List LiabilityProof)
    (h : Point) (rho : ℕ) : Option SolvencyProof :=
  (point_sum (assets.map AssetProof.p_ref)).bind fun zAssets =>
  (mapMOpt liabilityZ liabilities).bind fun liabilityComms =>
  (point_sum liabilityComms).bind fun zLiabilities =>
  (point_mul zLiabilities (Field256.fromInt (-1))).bind fun negZL =>
  (point_add zAssets negZL).bind fun zSolvency =>
  let vSum := (assets.map (fun p => p.v.value)).sum
  let rSum := (liabilities.map LiabilityProof.r).sum
  let k := Field256.fromInt ((vSum : ℤ) - (rSum : ℤ))
  (schnorrCreate sha unc k h zSolvency (Field256.new rho)).bind fun prf =>
  some ⟨prf⟩

/-- `SolvencyProof::verify`. -/
def solvencyVerify (sha : List ℕ → ℕ) (unc : Fq → List ℕ)
    (prf : SolvencyProof) : Option Bool :=
  schnorrVerify sha unc prf.schnorr

/-! ## Serialization (src/serialization.rs, §6 of the spec) -/

/-- `impl Serialize for Point` (compressed, 33 bytes) is not under src/.
Modelled from the spec: SEC1 compressed — a parity byte and the 32-byte
x-coordinate.  `coords` abstracts the affine coordinates of the point with
the given exponent. -/
def pointSerialize (coords : Fq → ℕ × ℕ) (p : Point) : List ℕ :=
  (if (coords p.pk).2 % 2 = 0 then 0x02 else 0x03) ::
    biguint_to_bytes_be (coords p.pk).1 32

/-- `impl Serialize for BinaryProof` is not under src/.  Modelled from the
spec: the spec's layout line lists `L ‖ a0 ‖ a1 ‖ c1 ‖ r0 ‖ r1` but its own
size (261 bytes, confirmed by the source's 261-byte chunking in
`LiabilityProof::deserialize`) is `5·33 + 3·32`, so the two generator points
are serialized as well: `g ‖ h ‖ l ‖ a0 ‖ a1 ‖ c1 ‖ r0 ‖ r1`. -/
def binarySerialize (coords : Fq → ℕ × ℕ) (prf : BinaryProof) : List ℕ :=
  pointSerialize coords prf.g ++ pointSerialize coords prf.h ++
    pointSerialize coords prf.l ++ pointSerialize coords prf.a0 ++
    pointSerialize coords prf.a1 ++ Field256.serialize prf.c1 ++
    Field256.serialize prf.r0 ++ Field256.serialize prf.r1

/-- `impl Serialize for SchnorrProof`: `s ‖ g ‖ y ‖ t`. -/
def schnorrSerialize (coords : Fq → ℕ × ℕ) (prf : SchnorrProof) : List ℕ :=
  Field256.serialize prf.s ++ pointSerialize coords prf.g ++
    pointSerialize coords prf.y ++ pointSerialize coords prf.t

/-- `impl Serialize for AssetProof`:
`y ‖ b ‖ l ‖ a1 ‖ a2 ‖ a3 ‖ rs ‖ rv ‖ rt ‖ rx̂ ‖ v ‖ balance_comm`. -/
def assetSerialize (coords : Fq → ℕ × ℕ) (prf : AssetProof) : List ℕ :=
  pointSerialize coords prf.y ++ pointSerialize coords prf.b ++
    pointSerialize coords prf.l ++ pointSerialize coords prf.a1 ++
    pointSerialize coords prf.a2 ++ pointSerialize coords prf.a3 ++
    Field256.serialize prf.rs ++ Field256.serialize prf.rv ++
    Field256.serialize prf.rt ++ Field256.serialize prf.rxhat ++
    Field256.serialize prf.v ++ binarySerialize coords prf.balance_comm

/-- `impl Serialize for LiabilityProof`:
`cid ‖ bits ‖ n (32 bytes) ‖ r (minimal bytes, variable length)`. -/
def liabilitySerialize (coords : Fq → ℕ × ℕ) (prf : LiabilityProof) : List ℕ :=
  prf.cid ++ (prf.bits.map (binarySerialize coords)).flatten ++
    biguint_to_bytes_be prf.n 32 ++ natMinBytesBE prf.r

/-- `impl Serialize for SolvencyProof` (the wrapped Schnorr proof). -/
def solvencySerialize (coords : Fq → ℕ × ℕ) (prf : SolvencyProof) : List ℕ :=
  schnorrSerialize coords prf.schnorr

/-! ## Auxiliary lemmas -/

instance : Fact (1 < curveOrder) := ⟨by norm_num [curveOrder]⟩

@[simp] theorem expOf_mk_false (pk : Fq) : expOf ⟨pk, false⟩ = pk := rfl

@[simp] theorem expOf_mk_true (pk : Fq) : expOf ⟨pk, true⟩ = 0 := rfl

theorem bytesBEAux_length_le (f : ℕ) :
    ∀ v k : ℕ, v < 256 ^ k → (bytesBEAux f v).length ≤ k := by
  induction f with
  | zero => intro v k _; simp [bytesBEAux]
  | succ f ih =>
    intro v k hv
    unfold bytesBEAux
    split
    · simp
    · next hvne =>
      cases k with
      | zero =>
        simp at hv
        exact absurd hv hvne
      | succ j =>
        have hdiv : v / 256 < 256 ^ j := by
          rw [Nat.div_lt_iff_lt_mul (by norm_num)]
          calc v < 256 ^ (j + 1) := hv
            _ = 256 ^ j * 256 := by ring
        simpa using Nat.add_le_add_right (ih (v / 256) j hdiv) 1

theorem natMinBytesBE_length_le {v k : ℕ} (hk : 1 ≤ k) (h : v < 256 ^ k) :
    (natMinBytesBE v).length ≤ k := by
  unfold natMinBytesBE
  split
  · simpa using hk
  · exact bytesBEAux_length_le v v k h

theorem curveOrder_lt_pow : curveOrder < 256 ^ 32 := by norm_num [curveOrder]

theorem serialize_length_of_lt {a : Field256} (h : a.value < curveOrder) :
    (Field256.serialize a).length = 32 := by
  have hle : (natMinBytesBE a.value).length ≤ 32 :=
    natMinBytesBE_length_le (by norm_num) (lt_trans h curveOrder_lt_pow)
  simp [Field256.serialize]
  omega

theorem mapMOpt_length {f : α → Option β} :
    ∀ {l : List α} {res : List β}, mapMOpt f l = some res → res.length = l.length := by
  intro l
  induction l with
  | nil => intro res h; simp [mapMOpt] at h; simp [← h]
  | cons a as ih =>
    intro res h
    simp only [mapMOpt, Option.bind_eq_some, Option.some.injEq] at h
    rcases h with ⟨b, _, bs, hbs, hres⟩
    subst hres
    simp [ih hbs]

theorem biguint_to_bits_le_length (v len : ℕ) :
    (biguint_to_bits_le v len).length = len := by
  simp only [biguint_to_bits_le, List.length_append, List.length_take,
    List.length_replicate]
  omega

/-- The two algebraic identities behind binary-proof completeness. -/
theorem binary_ring1 (X Y U0 CF C eta : Fq) (hX : X = 0 ∨ X = 1) :
    (U0 * eta + -(X * CF) * 1) +
      (C - (X * (C - CF) + (1 - X) * CF)) * (X * 1 + Y * eta) =
      (U0 + (C - (X * (C - CF) + (1 - X) * CF)) * Y) * eta := by
  rcases hX with h | h <;> subst h <;> ring

theorem binary_ring2 (X Y U1 CF C eta : Fq) (hX : X = 0 ∨ X = 1) :
    (U1 * eta + (1 - X) * CF * 1) +
      (X * (C - CF) + (1 - X) * CF) * ((X * 1 + Y * eta) + -1) =
      (U1 + (X * (C - CF) + (1 - X) * CF) * Y) * eta := by
  rcases hX with h | h <;> subst h <;> ring

theorem point_inverse_g : point_inverse Point.g = some ⟨-1, false⟩ := by decide

theorem castF_c1expr (x cf c : Field256)
    (hx : x.value ≤ curveOrder) (hcf : cf.value ≤ curveOrder) :
    castF ((x.mul (c.sub cf)).add ((Field256.one.sub x).mul cf)) =
      castF x * (castF c - castF cf) + (1 - castF x) * castF cf := by
  rw [castF_add, castF_mul, castF_mul, castF_sub _ _ hcf, castF_sub _ _ hx, castF_one]

theorem castF_r0expr (u0 c c1 y : Field256) (hc1 : c1.value ≤ curveOrder) :
    castF (u0.add ((c.sub c1).mul y)) =
      castF u0 + (castF c - castF c1) * castF y := by
  rw [castF_add, castF_mul, castF_sub _ _ hc1]

theorem castF_r1expr (u1 c1 y : Field256) :
    castF (u1.add (c1.mul y)) = castF u1 + castF c1 * castF y := by
  rw [castF_add, castF_mul]

theorem mul_g_neg_one : Point.mul Point.g Field256.neg_one = some ⟨-1, false⟩ := by
  decide

/-- Core of binary-proof completeness: a proof over `g = G`, `h` with exponent
`eta`, whose responses satisfy the two discrete-log identities, verifies,
provided the response points are not the identity and `l ≠ g`. -/
theorem binary_verify_core (sha : List ℕ → ℕ) (unc : Fq → List ℕ) (eta : Fq)
    (l a0 a1 : Point) (c1 r0 r1 : Field256)
    (hc1lt : c1.value < curveOrder) (hr0lt : r0.value < curveOrder)
    (hr1lt : r1.value < curveOrder)
    (hid1 : expOf a0 +
      (castF (compute_challenge sha unc [Point.g, ⟨eta, false⟩, l, a0, a1]) -
        castF c1) * expOf l = castF r0 * eta)
    (hid2 : expOf a1 + castF c1 * (expOf l + -1) = castF r1 * eta)
    (hr0 : castF r0 * eta ≠ 0) (hr1 : castF r1 * eta ≠ 0)
    (hlg : l ≠ Point.g) :
    binaryVerify sha unc ⟨Point.g, ⟨eta, false⟩, l, a0, a1, c1, r0, r1⟩ = some true := by
  have hp1l : Point.mul ⟨eta, false⟩ r0 = some ⟨castF r0 * eta, false⟩ := by
    have := mul_of_ne (p := ⟨eta, false⟩) (n := r0) hr0lt (by simpa using hr0)
    simpa using this
  obtain ⟨m1, hm1, hm1exp⟩ := mul_isSome (p := l)
    (n := (compute_challenge sha unc [Point.g, ⟨eta, false⟩, l, a0, a1]).sub c1)
    (val_sub_lt _ _)
  have key1 : expOf a0 + expOf m1 = castF r0 * eta := by
    rw [hm1exp, castF_sub _ _ (le_of_lt hc1lt)]
    exact hid1
  have hp1r : Point.add a0 m1 = some ⟨castF r0 * eta, false⟩ := by
    have := add_of_sum_ne (p := a0) (q := m1) (key1 ▸ hr0)
    rwa [key1] at this
  have hp2l : Point.mul ⟨eta, false⟩ r1 = some ⟨castF r1 * eta, false⟩ := by
    have := mul_of_ne (p := ⟨eta, false⟩) (n := r1) hr1lt (by simpa using hr1)
    simpa using this
  have hlgsum : expOf l + expOf (⟨-1, false⟩ : Point) ≠ 0 := by
    simp only [expOf_mk_false]
    intro h0
    have hone : expOf l = 1 := by
      have h1 : expOf l - 1 = 0 := by rw [← h0]; ring
      exact sub_eq_zero.mp h1
    cases hli : l.infinity
    · apply hlg
      have hleta : l = ⟨l.pk, false⟩ := by cases l; simp_all
      have hpk : l.pk = 1 := by rwa [expOf, hli, if_neg (by simp)] at hone
      rw [hleta, hpk]; rfl
    · rw [expOf, hli, if_pos rfl] at hone
      exact zero_ne_one hone
  have hlgadd : Point.add l ⟨-1, false⟩ = some ⟨expOf l + -1, false⟩ := by
    have := add_of_sum_ne hlgsum
    simpa using this
  obtain ⟨m2, hm2, hm2exp⟩ := mul_isSome (p := (⟨expOf l + -1, false⟩ : Point))
    (n := c1) hc1lt
  have key2 : expOf a1 + expOf m2 = castF r1 * eta := by
    rw [hm2exp, expOf_mk_false]
    exact hid2
  have hp2r : Point.add a1 m2 = some ⟨castF r1 * eta, false⟩ := by
    have := add_of_sum_ne (p := a1) (q := m2) (key2 ▸ hr1)
    rwa [key2] at this
  simp only [binaryVerify, point_mul, point_add, point_inverse, hp1l, hm1, hp1r,
    hp2l, mul_g_neg_one, hlgadd, hm2, hp2r, Option.some_bind]
  simp

/-- Honest-prover completeness of `BinaryProof` for `g = G`, `h = H` (exponent
`eta ≠ 0`), conditional on: creation completed without a panic, the two
response points `r0·h`, `r1·h` are not the identity, and the commitment `l`
differs from `g` (otherwise `verify` panics computing `l − g`). -/
theorem binary_completeness (sha : List ℕ → ℕ) (unc : Fq → List ℕ) (eta : Fq)
    (_heta : eta ≠ 0) (xv yv u0v u1v cfv : ℕ) (prf : BinaryProof)
    (hx : xv = 0 ∨ xv = 1)
    (hcreate : binaryCreate sha unc (Field256.new xv) (Field256.new yv)
      (Field256.new u0v) (Field256.new u1v) (Field256.new cfv)
      Point.g ⟨eta, false⟩ = some prf)
    (hr0 : castF prf.r0 * eta ≠ 0) (hr1 : castF prf.r1 * eta ≠ 0)
    (hlg : prf.l ≠ Point.g) :
    binaryVerify sha unc prf = some true := by
  have hbin : (Field256.new xv).isBinary = true := by
    rcases hx with h | h <;> subst h <;> decide
  rw [binaryCreate, if_pos hbin] at hcreate
  simp only [Option.bind_eq_some, Option.some.injEq] at hcreate
  obtain ⟨l, hl, a0, ha0, a1, ha1, hprf⟩ := hcreate
  subst hprf
  simp only at hr0 hr1 hlg ⊢
  have hXbin : ((xv : ℕ) : Fq) = 0 ∨ ((xv : ℕ) : Fq) = 1 := by
    rcases hx with h | h <;> subst h <;> simp
  have hexpl : expOf l = (xv : Fq) * 1 + (yv : Fq) * eta := by
    have h1 := pedersen_eq_some_exp hl
    simpa using h1
  have hexpa0 : expOf a0 = (u0v : Fq) * eta + -((xv : Fq) * (cfv : Fq)) * 1 := by
    have h1 := pedersen_eq_some_exp ha0
    rw [h1, castF_neg _ (le_of_lt (val_mul_lt _ _)), castF_mul]
    simp
  have hexpa1 : expOf a1 = (u1v : Fq) * eta + (1 - (xv : Fq)) * (cfv : Fq) * 1 := by
    have h1 := pedersen_eq_some_exp ha1
    rw [h1, castF_mul, castF_sub _ _ (le_of_lt (val_new_lt _)), castF_one]
    simp
  apply binary_verify_core sha unc eta l a0 a1 _ _ _
    (val_add_lt _ _) (val_add_lt _ _) (val_add_lt _ _) ?_ ?_ hr0 hr1 hlg
  · -- first identity
    rw [castF_c1expr _ _ _ (le_of_lt (val_new_lt _)) (le_of_lt (val_new_lt _)),
      castF_r0expr _ _ _ _ (le_of_lt (val_add_lt _ _)),
      castF_c1expr _ _ _ (le_of_lt (val_new_lt _)) (le_of_lt (val_new_lt _)),
      hexpa0, hexpl]
    simp only [castF_new]
    rcases hXbin with h | h <;> rw [h] <;> ring
  · -- second identity
    rw [castF_c1expr _ _ _ (le_of_lt (val_new_lt _)) (le_of_lt (val_new_lt _)),
      castF_r1expr,
      castF_c1expr _ _ _ (le_of_lt (val_new_lt _)) (le_of_lt (val_new_lt _)),
      hexpa1, hexpl]
    simp only [castF_new]
    rcases hXbin with h | h <;> rw [h] <;> ring

/-! ## Model validation against the source's own unit tests -/

/-- The unit tests of `bigint::biguint_to_bits_le` hold in the model. -/
theorem biguint_to_bits_le_unit_tests :
    biguint_to_bits_le 1 4 = [1, 0, 0, 0] ∧
    biguint_to_bits_le 1 8 = [1, 0, 0, 0, 0, 0, 0, 0] ∧
    biguint_to_bits_le 43690 16 = [0, 1, 0, 1, 0, 1, 0, 1, 0, 1, 0, 1, 0, 1, 0, 1] := by
  decide

/-- The unit tests of `util::byte_to_bits_le` hold in the model. -/
theorem byte_to_bits_le_unit_tests :
    byte_to_bits_le 0 = [0, 0, 0, 0, 0, 0, 0, 0] ∧
    byte_to_bits_le 1 = [1, 0, 0, 0, 0, 0, 0, 0] ∧
    byte_to_bits_le 2 = [0, 1, 0, 0, 0, 0, 0, 0] ∧
    byte_to_bits_le 255 = [1, 1, 1, 1, 1, 1, 1, 1] := by
  decide

set_option maxRecDepth 100000 in
/-- The source's own end-to-end solvency test (balances 10 = 10) holds in the
model: a held account and a customer with equal one-byte balances give a
verifying solvency proof (randomness fixed, `H` instantiated at exponent 2 as
in the source's own solvency unit test, challenge hash instantiated). -/
theorem solvency_test_balance_10 :
    ((assetCreate (fun _ => 1) (fun _ => []) (some (Field256.new 1)) Point.g 10
        Point.g ⟨2, false⟩ 1 1 1 1 1 1 1 1 1).bind fun asset =>
      (liabilityCreate (fun _ => 1) (fun _ => []) [] 10 (fun _ => (1, 1, 1, 1)) 7
        Point.g ⟨2, false⟩).bind fun liab =>
      (solvencyCreate (fun _ => 1) (fun _ => []) [asset] [liab] ⟨2, false⟩ 1).bind
        fun sp => solvencyVerify (fun _ => 1) (fun _ => []) sp) = some true := by
  decide

/-! ## C1: solvency completeness -/

set_option maxRecDepth 100000 in
/-- C1 (code_bug evidence): one held account `x = 1, Y = G, bal = 256` and one
customer with the same balance 256 — the asset and liability sums are equal,
yet `SolvencyProof::verify()` returns `false`: `biguint_to_bits_le` encodes
the customer balance 256 as the bit vector of 1, so the liability commitment
carries `1·G` instead of `256·G` and the Schnorr statement `Z = k·H` fails.
(All randomness fixed; `H` at exponent 2; challenge hash instantiated.) -/
theorem c1_solvency_fails_at_equal_balance_256 :
    ((assetCreate (fun _ => 1) (fun _ => []) (some (Field256.new 1)) Point.g 256
        Point.g ⟨2, false⟩ 1 1 1 1 1 1 1 1 1).bind fun asset =>
      (liabilityCreate (fun _ => 1) (fun _ => []) [] 256 (fun _ => (1, 1, 1, 1)) 7
        Point.g ⟨2, false⟩).bind fun liab =>
      (solvencyCreate (fun _ => 1) (fun _ => []) [asset] [liab] ⟨2, false⟩ 1).bind
        fun sp => solvencyVerify (fun _ => 1) (fun _ => []) sp) = some false := by
  decide

/-! ## C2: liability completeness / bit decomposition -/

set_option maxRecDepth 100000 in
/-- C2 (code_bug evidence): the computed bit vector for balance 256 is the
decomposition of 1, not of 256 (`to_bytes_be` is big-endian per byte), and
consequently `verify_as_customer(id, 256)` returns `false` on an honestly
created proof. -/
theorem c2_bits_encode_wrong_value :
    biguint_to_bits_le 256 51 = 1 :: List.replicate 50 0 ∧
    ((liabilityCreate (fun _ => 1) (fun _ => []) [] 256 (fun _ => (1, 1, 1, 1)) 7
        Point.g ⟨2, false⟩).bind fun p =>
      liabilityVerifyAsCustomer p [] 256) = some false := by
  constructor
  · decide
  · decide

/-! ## C4: no BalanceOverflow error -/

set_option maxRecDepth 100000 in
/-- C4 counterexample: `LiabilityProof::create` at balance `2^51` returns a
proof — it does not fail (there is no `BalanceOverflow` error in the code). -/
theorem c4_create_succeeds_at_2_pow_51 :
    (liabilityCreate (fun _ => 1) (fun _ => []) [] (2 ^ 51)
      (fun _ => (1, 1, 1, 1)) 7 Point.g ⟨2, false⟩).isSome = true := by
  decide

/-- C4 amended: `create` checks no balance bound; whenever it returns a proof
(for any balance, however large) the proof holds exactly `BALANCE_BITS = 51`
bit proofs — the bit stream is silently truncated. -/
theorem c4_liability_create_truncates (sha : List ℕ → ℕ) (unc : Fq → List ℕ)
    (identifier : List ℕ) (balance : ℕ) (rnd : ℕ → ℕ × ℕ × ℕ × ℕ) (nv : ℕ)
    (g h : Point) (prf : LiabilityProof)
    (hcreate : liabilityCreate sha unc identifier balance rnd nv g h = some prf) :
    prf.bits.length = BALANCE_BITS := by
  rw [liabilityCreate] at hcreate
  simp only [Option.bind_eq_some, Option.some.injEq] at hcreate
  obtain ⟨bps, hbps, hprf⟩ := hcreate
  subst hprf
  simp only
  rw [mapMOpt_length hbps, List.enum_length, biguint_to_bits_le_length]

set_option maxRecDepth 100000 in
/-- Witness for `c4_liability_create_truncates` at balance `2^51`. -/
theorem c4_liability_create_truncates_witness :
    ((liabilityCreate (fun _ => 1) (fun _ => []) [] (2 ^ 51)
      (fun _ => (1, 1, 1, 1)) 7 Point.g ⟨2, false⟩).get
        (by decide)).bits.length = BALANCE_BITS :=
  c4_liability_create_truncates (fun _ => 1) (fun _ => []) [] (2 ^ 51)
    (fun _ => (1, 1, 1, 1)) 7 Point.g ⟨2, false⟩ _
    (Option.some_get _).symm

/-! ## C5: verification can panic -/

/-- C5 (code_bug evidence): an adversarial `BinaryProof` on which `verify`
hits the `expect("invalid addition")` panic: `l = G`, `a0 = −G` (a real curve
point), `c1 = c − 1` where `c` is the proof's Fiat–Shamir challenge, so the
verifier computes `a0 + 1·l = −G + G`, the `combine` call errors, and the
program aborts instead of returning a boolean.  (Challenge hash instantiated
so that `c = 1`; `H` at exponent 2.) -/
theorem c5_binary_verify_panics :
    binaryVerify (fun _ => 1) (fun _ => [])
      ⟨Point.g, ⟨2, false⟩, Point.g, ⟨-1, false⟩, Point.g,
        Field256.new 0, Field256.new 1, Field256.new 1⟩ = none := by
  decide

/-! ## C3: binary-proof completeness -/

/-- C3 counterexample: the claim as stated — for `g = G`, `h = H` (any nonzero
exponent `eta`), EVERY blinding `y` and EVERY choice of the prover's random
scalars `u0, u1, cf`, `create` returns a proof that verifies — is false: for
`y` with `x·g + y·h = O` (here `x = 1`, `eta = 2`, `y = (q−1)/2`) the very
first Pedersen commitment panics in `Point::add`, so no proof is returned. -/
theorem c3_claim_counterexample :
    ¬ (∀ (sha : List ℕ → ℕ) (unc : Fq → List ℕ) (eta : Fq), eta ≠ 0 →
        ∀ xv yv u0v u1v cfv : ℕ, xv = 0 ∨ xv = 1 →
          ((binaryCreate sha unc (Field256.new xv) (Field256.new yv)
              (Field256.new u0v) (Field256.new u1v) (Field256.new cfv)
              Point.g ⟨eta, false⟩).bind (binaryVerify sha unc)) = some true) := by
  intro hclaim
  have h := hclaim (fun _ => 1) (fun _ => []) 2 (by decide) 1 ((curveOrder - 1) / 2)
    1 1 1 (Or.inr rfl)
  exact absurd h (by decide)

set_option maxRecDepth 8000 in
/-- Witness for `binary_completeness` at `x = 1`, `eta = 2`, concrete
randomness and challenge hash. -/
theorem binary_completeness_witness :
    binaryVerify (fun _ => 5) (fun _ => [])
      ((binaryCreate (fun _ => 5) (fun _ => []) (Field256.new 1) (Field256.new 1)
        (Field256.new 1) (Field256.new 2) (Field256.new 3) Point.g ⟨2, false⟩).get
          (by decide)) = some true := by
  exact binary_completeness (fun _ => 5) (fun _ => []) 2 (by decide) 1 1 1 2 3 _
    (Or.inr rfl) (Option.some_get _).symm (by decide) (by decide) (by decide)

/-! ## C6: scalar-multiplication identities -/

/-- C6 counterexample: `0·P` for `P = 2·G` (a real curve point) is
identity-flagged but keeps `P`'s key, and the derived equality compares that
stale key, so `0·P == O` is false for `P ≠ G`. -/
theorem c6_zero_mul_counterexample :
    Point.mul ⟨2, false⟩ Field256.zero ≠ some Point.atInfinity := by
  decide

/-- C6 amended: `k·O = O` and `1·P = P` hold; `0·P` sets the infinity flag
but keeps `P`'s stored key, so under the derived equality `0·P == O` holds
exactly when that key is the generator's. -/
theorem c6_scalar_mul_identities :
    (∀ P : Point, Point.mul P Field256.zero = some { P with infinity := true }) ∧
    (∀ k : Field256, Point.mul Point.atInfinity k = some Point.atInfinity) ∧
    (∀ P : Point, Point.mul P Field256.one = some P) ∧
    (∀ P : Point, Point.mul P Field256.zero = some Point.atInfinity ↔ P.pk = 1) := by
  have hzero : Field256.zero.isZero = true := by decide
  have hone : Field256.one.isZero = false := by decide
  have honelt : Field256.one.value < curveOrder := val_new_lt 1
  have honecast : ((Field256.one.value : ℕ) : Fq) = 1 := by decide
  have hmulzero : ∀ P : Point, Point.mul P Field256.zero =
      some { P with infinity := true } := by
    intro P
    rw [Point.mul, if_pos hzero]
  refine ⟨hmulzero, ?_, ?_, ?_⟩
  · intro k
    rw [Point.mul]
    split
    · rfl
    · simp [Point.atInfinity]
  · intro P
    rcases P with ⟨pk, inf⟩
    rw [Point.mul, if_neg (by simp [hone])]
    cases inf
    · simp [honelt, honecast]
    · simp
  · intro P
    rw [hmulzero P]
    constructor
    · intro h
      have h2 := Option.some.inj h
      exact congrArg Point.pk h2
    · intro h
      rw [show ({ P with infinity := true } : Point) = ⟨P.pk, true⟩ from rfl, h]
      rfl

/-! ## C8: the customer identifier hash -/

set_option maxRecDepth 8000 in
/-- C8 counterexample: the cid of salt `n = 1` (empty identifier) is not the
SHA-256 of the identifier followed by the 32-byte left-padded encoding of
`n` — the code hashes the minimal one-byte encoding instead. -/
theorem c8_cid_not_padded :
    compute_cid [] 1 ≠ sha256Bytes ([] ++ biguint_to_bytes_be 1 32) := by
  decide

/-- C8 amended: the stored cid is the SHA-256 of the identifier followed by
the MINIMAL big-endian encoding of the (reduced) salt `n`, not a 32-byte
padded encoding. -/
theorem c8_cid_uses_minimal_encoding (sha : List ℕ → ℕ) (unc : Fq → List ℕ)
    (identifier : List ℕ) (balance : ℕ) (rnd : ℕ → ℕ × ℕ × ℕ × ℕ) (nv : ℕ)
    (g h : Point) (prf : LiabilityProof)
    (hcreate : liabilityCreate sha unc identifier balance rnd nv g h = some prf) :
    prf.n = nv % curveOrder ∧
    prf.cid = sha256Bytes (identifier ++ natMinBytesBE prf.n) := by
  rw [liabilityCreate] at hcreate
  simp only [Option.bind_eq_some, Option.some.injEq] at hcreate
  obtain ⟨bps, hbps, hprf⟩ := hcreate
  subst hprf
  exact ⟨rfl, rfl⟩

set_option maxRecDepth 100000 in
/-- Witness for `c8_cid_uses_minimal_encoding` at a concrete creation. -/
theorem c8_cid_uses_minimal_encoding_witness :
    ((liabilityCreate (fun _ => 1) (fun _ => []) [] 10 (fun _ => (1, 1, 1, 1)) 7
        Point.g ⟨2, false⟩).get (by decide)).n = 7 % curveOrder ∧
    ((liabilityCreate (fun _ => 1) (fun _ => []) [] 10 (fun _ => (1, 1, 1, 1)) 7
        Point.g ⟨2, false⟩).get (by decide)).cid =
      sha256Bytes ([] ++ natMinBytesBE
        (((liabilityCreate (fun _ => 1) (fun _ => []) [] 10 (fun _ => (1, 1, 1, 1)) 7
          Point.g ⟨2, false⟩).get (by decide)).n)) := by
  exact c8_cid_uses_minimal_encoding (fun _ => 1) (fun _ => []) [] 10
    (fun _ => (1, 1, 1, 1)) 7 Point.g ⟨2, false⟩ _ (Option.some_get _).symm

/-! ## C9: Field256 values stay reduced -/

theorem to_big_endian_isSome_of_lt {a : Field256} (h : a.value < curveOrder) :
    (a.to_big_endian).isSome = true := by
  have hle : (natMinBytesBE a.value).length ≤ 32 :=
    natMinBytesBE_length_le (by norm_num) (lt_trans h curveOrder_lt_pow)
  simp only [Field256.to_big_endian]
  rw [if_neg (by omega)]
  rfl

/-- C9: every public constructor and arithmetic operator of `Field256`
produces a value strictly below the subgroup order (each of them funnels
through `Field256::new`), so `to_big_endian`'s overflow panic branch is
unreachable on their results. -/
theorem c9_field256_values_reduced :
    (∀ v, (Field256.new v).value < curveOrder) ∧
    (∀ bytes, (Field256.from_bytes_be bytes).value < curveOrder) ∧
    (∀ z : ℤ, (Field256.fromInt z).value < curveOrder) ∧
    (Field256.one.value < curveOrder ∧ Field256.zero.value < curveOrder ∧
      Field256.neg_one.value < curveOrder) ∧
    (∀ a b : Field256, (a.add b).value < curveOrder ∧
      (a.sub b).value < curveOrder ∧ (a.mul b).value < curveOrder) ∧
    (∀ a : Field256, a.neg.value < curveOrder) ∧
    (∀ v, ((Field256.new v).to_big_endian).isSome = true) ∧
    (∀ a b : Field256, ((a.add b).to_big_endian).isSome = true ∧
      ((a.sub b).to_big_endian).isSome = true ∧
      ((a.mul b).to_big_endian).isSome = true) ∧
    (∀ a : Field256, (a.neg.to_big_endian).isSome = true) := by
  refine ⟨val_new_lt, fun _ => val_new_lt _, fun _ => val_new_lt _,
    ⟨val_new_lt _, val_new_lt _, val_new_lt _⟩,
    fun a b => ⟨val_add_lt a b, val_sub_lt a b, val_mul_lt a b⟩,
    fun a => val_neg_lt a,
    fun v => to_big_endian_isSome_of_lt (val_new_lt v),
    fun a b => ⟨to_big_endian_isSome_of_lt (val_add_lt a b),
      to_big_endian_isSome_of_lt (val_sub_lt a b),
      to_big_endian_isSome_of_lt (val_mul_lt a b)⟩,
    fun a => to_big_endian_isSome_of_lt (val_neg_lt a)⟩

/-! ## C10: uncompressed serialization ignores the infinity flag -/

/-- C10: `serialize_uncompressed` returns the encoding of the stored key even
when the infinity flag is set; `Point::infinity()` serializes as the
generator's coordinates; and `compute_challenge` therefore hashes an identity
point as its stale coordinates. -/
theorem c10_uncompressed_ignores_infinity (sha : List ℕ → ℕ)
    (unc : Fq → List ℕ) (p : Point) (_hp : p.infinity = true) :
    Point.serialize_uncompressed unc p =
      Point.serialize_uncompressed unc ⟨p.pk, false⟩ ∧
    Point.serialize_uncompressed unc Point.atInfinity =
      Point.serialize_uncompressed unc Point.g ∧
    (∀ pre post : List Point,
      compute_challenge sha unc (pre ++ p :: post) =
        compute_challenge sha unc (pre ++ ⟨p.pk, false⟩ :: post)) := by
  refine ⟨rfl, rfl, fun pre post => ?_⟩
  simp [compute_challenge, Point.serialize_uncompressed]

/-- Witness for `c10_uncompressed_ignores_infinity` at `Point::infinity()`. -/
theorem c10_uncompressed_ignores_infinity_witness :
    Point.atInfinity.infinity = true ∧
    Point.serialize_uncompressed (fun _ => []) Point.atInfinity =
      Point.serialize_uncompressed (fun _ => []) ⟨Point.atInfinity.pk, false⟩ :=
  ⟨rfl, (c10_uncompressed_ignores_infinity (fun _ => 1) (fun _ => [])
    Point.atInfinity rfl).1⟩

/-! ## C7: serialized sizes -/

theorem pointSerialize_length (coords : Fq → ℕ × ℕ)
    (hc : ∀ k, (coords k).1 < 256 ^ 32) (p : Point) :
    (pointSerialize coords p).length = 33 := by
  have hle : (natMinBytesBE (coords p.pk).1).length ≤ 32 :=
    natMinBytesBE_length_le (by norm_num) (hc p.pk)
  simp only [pointSerialize, biguint_to_bytes_be, List.length_cons,
    List.length_append, List.length_replicate]
  omega

theorem binarySerialize_length (coords : Fq → ℕ × ℕ)
    (hc : ∀ k, (coords k).1 < 256 ^ 32) (b : BinaryProof)
    (h1 : b.c1.value < curveOrder) (h2 : b.r0.value < curveOrder)
    (h3 : b.r1.value < curveOrder) :
    (binarySerialize coords b).length = 261 := by
  simp [binarySerialize, pointSerialize_length coords hc,
    serialize_length_of_lt h1, serialize_length_of_lt h2,
    serialize_length_of_lt h3]

theorem flatten_lengths_const {f : α → List β} {l : List α}
    (h : ∀ a ∈ l, (f a).length = 261) :
    ((l.map f).flatten).length = 261 * l.length := by
  induction l with
  | nil => simp
  | cons a as ih =>
    simp only [List.map_cons, List.flatten_cons, List.length_append,
      List.length_cons, h a (List.mem_cons_self a as),
      ih (fun b hb => h b (List.mem_cons_of_mem a hb))]
    ring

theorem liabilitySerialize_length (coords : Fq → ℕ × ℕ)
    (hc : ∀ k, (coords k).1 < 256 ^ 32) (lp : LiabilityProof)
    (hcid : lp.cid.length = 32) (hbits : lp.bits.length = 51)
    (hred : ∀ b ∈ lp.bits, b.c1.value < curveOrder ∧ b.r0.value < curveOrder ∧
      b.r1.value < curveOrder) (hn : lp.n < 256 ^ 32) :
    (liabilitySerialize coords lp).length = 13375 + (natMinBytesBE lp.r).length := by
  have hflat : ((lp.bits.map (binarySerialize coords)).flatten).length =
      261 * lp.bits.length :=
    flatten_lengths_const (fun b hb =>
      binarySerialize_length coords hc b (hred b hb).1 (hred b hb).2.1
        (hred b hb).2.2)
  have hnle : (natMinBytesBE lp.n).length ≤ 32 :=
    natMinBytesBE_length_le (by norm_num) hn
  simp only [liabilitySerialize, List.length_append, hcid, hflat, hbits,
    biguint_to_bytes_be, List.length_replicate]
  omega

/-- C7 amended: with any 33-byte point codec, `SchnorrProof`, `BinaryProof`
and `AssetProof` serialize to the fixed 131, 261 and 619 bytes whenever their
scalar fields are reduced (as created); `LiabilityProof::serialize` is NOT
fixed-length: it emits `13 375 + len(r)` bytes where `len(r)` is the minimal
big-endian byte length of the aggregated blinding `r`. -/
theorem c7_serialized_lengths (coords : Fq → ℕ × ℕ)
    (hc : ∀ k, (coords k).1 < 256 ^ 32) :
    (∀ p : SchnorrProof, p.s.value < curveOrder →
      (schnorrSerialize coords p).length = 131) ∧
    (∀ b : BinaryProof, b.c1.value < curveOrder → b.r0.value < curveOrder →
      b.r1.value < curveOrder → (binarySerialize coords b).length = 261) ∧
    (∀ a : AssetProof, a.rs.value < curveOrder → a.rv.value < curveOrder →
      a.rt.value < curveOrder → a.rxhat.value < curveOrder →
      a.v.value < curveOrder → a.balance_comm.c1.value < curveOrder →
      a.balance_comm.r0.value < curveOrder → a.balance_comm.r1.value < curveOrder →
      (assetSerialize coords a).length = 619) ∧
    (∀ lp : LiabilityProof, lp.cid.length = 32 → lp.bits.length = 51 →
      (∀ b ∈ lp.bits, b.c1.value < curveOrder ∧ b.r0.value < curveOrder ∧
        b.r1.value < curveOrder) → lp.n < 256 ^ 32 →
      (liabilitySerialize coords lp).length =
        13375 + (natMinBytesBE lp.r).length) := by
  refine ⟨?_, binarySerialize_length coords hc, ?_, ?_⟩
  · intro p hs
    simp [schnorrSerialize, pointSerialize_length coords hc,
      serialize_length_of_lt hs]
  · intro a h1 h2 h3 h4 h5 h6 h7 h8
    simp [assetSerialize, pointSerialize_length coords hc,
      serialize_length_of_lt h1, serialize_length_of_lt h2,
      serialize_length_of_lt h3, serialize_length_of_lt h4,
      serialize_length_of_lt h5,
      binarySerialize_length coords hc _ h6 h7 h8]
  · exact liabilitySerialize_length coords hc

/-- Witness for `c7_serialized_lengths` at a constant codec and concrete
proof values. -/
theorem c7_serialized_lengths_witness :
    (schnorrSerialize (fun _ => (0, 0))
      ⟨Field256.new 0, Point.g, Point.g, Point.g⟩).length = 131 ∧
    (binarySerialize (fun _ => (0, 0))
      ⟨Point.g, Point.g, Point.g, Point.g, Point.g,
        Field256.new 0, Field256.new 0, Field256.new 0⟩).length = 261 ∧
    (assetSerialize (fun _ => (0, 0))
      ⟨Point.g, Point.g, Point.g, Point.g, Point.g, Point.g, Point.g, Point.g,
        Field256.new 0, Field256.new 0, Field256.new 0, Field256.new 0,
        Field256.new 0,
        ⟨Point.g, Point.g, Point.g, Point.g, Point.g,
          Field256.new 0, Field256.new 0, Field256.new 0⟩⟩).length = 619 ∧
    (liabilitySerialize (fun _ => (0, 0))
      ⟨Point.g, Point.g, List.replicate 32 0,
        List.replicate 51
          ⟨Point.g, Point.g, Point.g, Point.g, Point.g,
            Field256.new 0, Field256.new 0, Field256.new 0⟩, 0, 0⟩).length =
      13375 + (natMinBytesBE 0).length := by
  have h := c7_serialized_lengths (fun _ => (0, 0)) (fun _ => by norm_num)
  refine ⟨h.1 _ (by decide), h.2.1 _ (by decide) (by decide) (by decide),
    h.2.2.1 _ (by decide) (by decide) (by decide) (by decide) (by decide)
      (by decide) (by decide) (by decide),
    h.2.2.2 _ (by decide) (by decide) (by decide) (by decide)⟩

set_option maxRecDepth 100000 in
/-- C7 counterexample: an honestly created `LiabilityProof` (blindings
`rᵢ = 2^255`) serializes to `13 375 + 39 = 13 414` bytes, not 13 382: the
aggregated blinding `r = Σ rᵢ·2ⁱ` is a 306-bit integer emitted as
minimal-length bytes, while the spec's figure accounts only 7 bytes for it. -/
theorem c7_liability_serialize_not_13382 :
    (liabilitySerialize (fun _ => (0, 0))
      ((liabilityCreate (fun _ => 1) (fun _ => []) [] 10
        (fun _ => (2 ^ 255, 1, 1, 1)) 7 Point.g ⟨2, false⟩).get
          (by decide))).length ≠ 13382 := by
  rw [liabilitySerialize_length (fun _ => (0, 0)) (fun _ => by norm_num) _
    (by decide) (by decide) (by decide) (by decide)]
  rw [show (natMinBytesBE ((liabilityCreate (fun _ => 1) (fun _ => []) [] 10
    (fun _ => (2 ^ 255, 1, 1, 1)) 7 Point.g ⟨2, false⟩).get
      (by decide)).r).length = 39 from by decide]
  decide

/-! ## Strengthened panic and incompleteness facts -/

theorem field256_ext {a b : Field256} (h : a.value = b.value) : a = b := by
  cases a
  cases b
  simpa using h

theorem mul_new_zero (p : Point) :
    Point.mul p (Field256.new 0) = some { p with infinity := true } := by
  unfold Point.mul
  rw [if_pos (by decide)]

theorem mul_one_eval (p : Point) : Point.mul p Field256.one = some p := by
  unfold Point.mul
  rw [if_neg (by decide)]
  cases hpi : p.infinity
  · rw [if_neg (by simp [hpi]),
      if_pos (show Field256.one.value < curveOrder from val_new_lt 1),
      show ((Field256.one.value : ℕ) : Fq) = 1 from by decide, one_mul, ← hpi]
  · rw [if_pos rfl]

theorem field256_eq_of_castF {a b : Field256} (ha : a.value < curveOrder)
    (hb : b.value < curveOrder) (h : castF a = castF b) : a = b := by
  apply field256_ext
  have h2 := congrArg ZMod.val h
  rwa [castF, castF, ZMod.val_natCast_of_lt ha, ZMod.val_natCast_of_lt hb] at h2

theorem sub_sub_one_eq_one (c : Field256) (_hlt : c.value < curveOrder) :
    c.sub (c.sub Field256.one) = Field256.one := by
  apply field256_eq_of_castF (val_sub_lt _ _)
    (show Field256.one.value < curveOrder from val_new_lt 1)
  rw [castF_sub _ _ (le_of_lt (val_sub_lt _ _)),
    castF_sub _ _ (show Field256.one.value ≤ curveOrder from le_of_lt (val_new_lt 1)),
    castF_one]
  ring

/-- C5, in full generality: for EVERY challenge hash, every point encoding and
every exponent of `h`, the adversarial `BinaryProof` with `l = G`, `a0 = −G`,
`a1 = G` and `c1 = c − 1` (where `c` is the proof's own Fiat–Shamir
challenge — the adversary can compute it) drives `verify` into the
`combine`/`expect("invalid addition")` panic: it computes `a0 + 1·l = −G + G`,
the point at infinity. -/
theorem c5_binary_verify_panics_generally (sha : List ℕ → ℕ)
    (unc : Fq → List ℕ) (eta : Fq) :
    binaryVerify sha unc
      ⟨Point.g, ⟨eta, false⟩, Point.g, ⟨-1, false⟩, Point.g,
        (compute_challenge sha unc
          [Point.g, ⟨eta, false⟩, Point.g, ⟨-1, false⟩, Point.g]).sub Field256.one,
        Field256.new 1, Field256.new 1⟩ = none := by
  have hsub := sub_sub_one_eq_one
    (compute_challenge sha unc
      [Point.g, ⟨eta, false⟩, Point.g, ⟨-1, false⟩, Point.g]) (val_new_lt _)
  obtain ⟨P1, hP1, _⟩ := mul_isSome (p := (⟨eta, false⟩ : Point))
    (n := Field256.new 1) (val_new_lt 1)
  have hadd : Point.add ⟨-1, false⟩ Point.g = none := by
    unfold Point.add
    rw [if_neg (by simp), if_neg (by simp [Point.g]),
      if_pos (show (-1 : Fq) + Point.g.pk = 0 from by
        rw [show Point.g.pk = 1 from rfl]
        exact neg_add_cancel 1)]
  simp only [binaryVerify, point_mul, point_add, point_inverse, hsub, hP1,
    mul_one_eval, hadd, Option.some_bind, Option.none_bind]

theorem mul_eval_ff (a : Fq) (v : ℕ) (hv : ¬v % curveOrder = 0) :
    Point.mul ⟨a, false⟩ (Field256.new v) = some ⟨(v : Fq) * a, false⟩ := by
  have h1 : (Field256.new v).isZero = false := by
    simp [Field256.isZero, Field256.new, hv]
  have h2 : (Field256.new v).value < curveOrder := val_new_lt v
  have hc : ((Field256.new v).value : Fq) = (v : Fq) := castF_new v
  simp [Point.mul, h1, h2, hc]

theorem add_inf_left (a : Fq) (q : Point) :
    Point.add ⟨a, true⟩ q = some ⟨q.pk, q.infinity⟩ := by
  unfold Point.add
  rw [if_pos rfl]

theorem add_ff_eval (a b : Fq) (h : ¬a + b = 0) :
    Point.add ⟨a, false⟩ ⟨b, false⟩ = some ⟨a + b, false⟩ := by
  unfold Point.add
  rw [if_neg (by simp), if_neg (by simp), if_neg h]

theorem add_ff_none (a b : Fq) (h : a + b = 0) :
    Point.add ⟨a, false⟩ ⟨b, false⟩ = none := by
  unfold Point.add
  rw [if_neg (by simp), if_neg (by simp), if_pos h]

